import Mathlib

/-!
Verification of the streaming chunk decoder of `leap-connect` (`src/v1/api.rs`).

The development embeds, over `List Char`:
* `trim`, mirroring Rust `str::trim` (Unicode `White_Space`);
* a JSON value type and an executable parser modelling the `serde_json`
  collaborator (`serde_json::from_str`);
* the chat-chunk schema (`ChatChunkResponse`), modelled from the spec since
  `v1/chat_completion.rs` is not part of the sources provided;
* `read_chunk` (api.rs 400-422);
* the decode loop of `chat_completion_stream` (api.rs 441-474), including the
  `StreamReader::new(reader.into_inner())` reconstruction performed after every
  successfully emitted chunk, which discards the reader's buffered leftover;
* the transport-level wrapper (api.rs 424-435 together with `post_stream`).
-/

namespace LeapConnect

/-! ## Rust `str::trim` -/

/-- Rust `char::is_whitespace`: the Unicode `White_Space` property. -/
def isRustWs (c : Char) : Bool :=
  let n := c.toNat
  decide (9 ≤ n ∧ n ≤ 13) || n == 32 || n == 0x85 || n == 0xA0 || n == 0x1680 ||
  decide (0x2000 ≤ n ∧ n ≤ 0x200A) || n == 0x2028 || n == 0x2029 ||
  n == 0x202F || n == 0x205F || n == 0x3000

/-- Leading-whitespace removal, first half of Rust `str::trim`. -/
def trimL (s : List Char) : List Char := s.dropWhile isRustWs

/-- Rust `str::trim` on `line` (api.rs 401): drop leading and trailing whitespace. -/
def trim (s : List Char) : List Char :=
  ((trimL s).reverse.dropWhile isRustWs).reverse

/-! ## JSON values and the `serde_json` collaborator -/

/-- JSON document model.  Numbers keep their raw digits: the chunk schema has no
numeric field, so their value is never inspected. -/
inductive Json where
  | null : Json
  | bool (b : Bool) : Json
  | num (raw : List Char) : Json
  | str (s : List Char) : Json
  | arr (elems : List Json) : Json
  | obj (fields : List (List Char × Json)) : Json

/-- JSON insignificant whitespace (RFC 8259: space, tab, LF, CR). -/
def isJsonWs (c : Char) : Bool :=
  c == ' ' || c == '\t' || c == '\n' || c == '\r'

def skipJsonWs (s : List Char) : List Char := s.dropWhile isJsonWs

def hexVal (c : Char) : Option Nat :=
  if '0' ≤ c ∧ c ≤ '9' then some (c.toNat - '0'.toNat)
  else if 'a' ≤ c ∧ c ≤ 'f' then some (c.toNat - 'a'.toNat + 10)
  else if 'A' ≤ c ∧ c ≤ 'F' then some (c.toNat - 'A'.toNat + 10)
  else none

/-- Body of a JSON string after the opening quote: returns the decoded content
and the input following the closing quote.  Escapes as in RFC 8259; a `\u`
escape in the surrogate range is rejected (the model does not combine
surrogate pairs — no claim exercises them). -/
def parseStringBody : Nat → List Char → Option (List Char × List Char)
  | 0, _ => none
  | _ + 1, [] => none
  | fuel + 1, c :: rest =>
    if c = '"' then some ([], rest)
    else if c = '\\' then
      match rest with
      | [] => none
      | e :: rest2 =>
        let cont : Char → List Char → Option (List Char × List Char) :=
          fun ch r => (parseStringBody fuel r).map (fun p => (ch :: p.1, p.2))
        if e = '"' then cont '"' rest2
        else if e = '\\' then cont '\\' rest2
        else if e = '/' then cont '/' rest2
        else if e = 'b' then cont (Char.ofNat 8) rest2
        else if e = 'f' then cont (Char.ofNat 12) rest2
        else if e = 'n' then cont '\n' rest2
        else if e = 'r' then cont '\r' rest2
        else if e = 't' then cont '\t' rest2
        else if e = 'u' then
          match rest2 with
          | h1 :: h2 :: h3 :: h4 :: rest3 =>
            match hexVal h1, hexVal h2, hexVal h3, hexVal h4 with
            | some a, some b, some c2, some d =>
              let n := ((a * 16 + b) * 16 + c2) * 16 + d
              if n < 0xD800 ∨ 0xE000 ≤ n then cont (Char.ofNat n) rest3 else none
            | _, _, _, _ => none
          | _ => none
        else none
    else if c.toNat < 0x20 then none
    else (parseStringBody fuel rest).map (fun p => (c :: p.1, p.2))

/-- JSON number token: `-? (0 | [1-9][0-9]*) (. [0-9]+)? ([eE][+-]?[0-9]+)?`. -/
def parseNumber (s : List Char) : Option (Json × List Char) :=
  let (sign, s1) :=
    match s with
    | c :: r => if c = '-' then (['-'], r) else (([] : List Char), s)
    | [] => ([], [])
  let intPart := s1.takeWhile Char.isDigit
  let r1 := s1.dropWhile Char.isDigit
  if intPart.isEmpty then none
  else if intPart.length > 1 ∧ intPart.headD '0' = '0' then none
  else
    let (fracPart, r2) :=
      match r1 with
      | '.' :: r => (('.' :: r.takeWhile Char.isDigit), r.dropWhile Char.isDigit)
      | _ => (([] : List Char), r1)
    if fracPart = ['.'] then none
    else
      match r2 with
      | e :: r3 =>
        if e = 'e' ∨ e = 'E' then
          let (signE, r4) :=
            match r3 with
            | c :: r => if c = '+' ∨ c = '-' then ([c], r) else (([] : List Char), r3)
            | [] => ([], [])
          let expPart := r4.takeWhile Char.isDigit
          if expPart.isEmpty then none
          else
            some (Json.num (sign ++ intPart ++ fracPart ++ e :: signE ++ expPart),
                  r4.dropWhile Char.isDigit)
        else some (Json.num (sign ++ intPart ++ fracPart), r2)
      | [] => some (Json.num (sign ++ intPart ++ fracPart), r2)

mutual

/-- Recursive-descent JSON value parser (fuel-indexed so that it is structural
and kernel-computable).  Models `serde_json`'s grammar. -/
def parseValue : Nat → List Char → Option (Json × List Char)
  | 0, _ => none
  | _ + 1, [] => none
  | fuel + 1, c :: rest =>
    if c = '"' then
      (parseStringBody (rest.length + 1) rest).map (fun p => (Json.str p.1, p.2))
    else if c = 't' then
      match rest with
      | 'r' :: 'u' :: 'e' :: r => some (Json.bool true, r)
      | _ => none
    else if c = 'f' then
      match rest with
      | 'a' :: 'l' :: 's' :: 'e' :: r => some (Json.bool false, r)
      | _ => none
    else if c = 'n' then
      match rest with
      | 'u' :: 'l' :: 'l' :: r => some (Json.null, r)
      | _ => none
    else if c = '[' then
      match skipJsonWs rest with
      | ']' :: r => some (Json.arr [], r)
      | s1 => (parseElems fuel s1).map (fun p => (Json.arr p.1, p.2))
    else if c = '\x7b' then
      match skipJsonWs rest with
      | '\x7d' :: r => some (Json.obj [], r)
      | s1 => (parseMembers fuel s1).map (fun p => (Json.obj p.1, p.2))
    else parseNumber (c :: rest)

/-- One-or-more comma-separated array elements followed by `]`. -/
def parseElems : Nat → List Char → Option (List Json × List Char)
  | 0, _ => none
  | fuel + 1, s =>
    match parseValue fuel s with
    | none => none
    | some (v, r) =>
      match skipJsonWs r with
      | ',' :: r2 => (parseElems fuel (skipJsonWs r2)).map (fun p => (v :: p.1, p.2))
      | ']' :: r2 => some ([v], r2)
      | _ => none

/-- One-or-more comma-separated object members followed by a closing brace. -/
def parseMembers : Nat → List Char → Option (List (List Char × Json) × List Char)
  | 0, _ => none
  | fuel + 1, s =>
    match s with
    | '"' :: rest =>
      match parseStringBody (rest.length + 1) rest with
      | none => none
      | some (key, r1) =>
        match skipJsonWs r1 with
        | ':' :: r2 =>
          match parseValue fuel (skipJsonWs r2) with
          | none => none
          | some (v, r3) =>
            match skipJsonWs r3 with
            | ',' :: r4 =>
              (parseMembers fuel (skipJsonWs r4)).map (fun p => ((key, v) :: p.1, p.2))
            | '\x7d' :: r4 => some ([(key, v)], r4)
            | _ => none
        | _ => none
    | _ => none

end

/-- `serde_json::from_str` at the document level: optional surrounding
whitespace around exactly one JSON value.  The fuel `2 * length + 2` is ample:
each unit of nesting consumes at least one input character and at most two fuel
units. -/
def parseJsonText (s : List Char) : Option Json :=
  let s1 := skipJsonWs s
  match parseValue (2 * s1.length + 2) s1 with
  | some (v, r) => if skipJsonWs r = [] then some v else none
  | none => none

/-! ## The chunk schema -/

/-- Modelled from the spec: the `delta` object of `v1/chat_completion.rs`
(file not under the provided sources); spec §6: "optional `delta` (object with
optional `content` text field)". -/
structure ChatChunkDelta where
  content : Option (List Char)
  deriving DecidableEq

/-- Modelled from the spec: spec §6, `finish_reason` string enum
(`stop`, `length`, `tool_calls`, `content_filter`). -/
inductive FinishReason where
  | stop : FinishReason
  | length : FinishReason
  | tool_calls : FinishReason
  | content_filter : FinishReason
  deriving DecidableEq

/-- Modelled from the spec: one element of `choices` (spec §6): optional
`delta` and optional `finish_reason` (absent or JSON null both decode to
`none`, matching serde `Option` semantics). -/
structure ChatChunkChoice where
  delta : Option ChatChunkDelta
  finish_reason : Option FinishReason
  deriving DecidableEq

/-- Modelled from the spec: `ChatChunkResponse` of `v1/chat_completion.rs`
(file not under the provided sources); spec §6: "object with field `choices`:
array of objects". -/
structure ChatChunkResponse where
  choices : List ChatChunkChoice
  deriving DecidableEq

/-- First field with the given key; other (unknown) fields are ignored, as
serde does by default. -/
def findField (k : List Char) : List (List Char × Json) → Option Json
  | [] => none
  | (k', v) :: rest => if k' = k then some v else findField k rest

def keyContent : List Char := ['c','o','n','t','e','n','t']
def keyDelta : List Char := ['d','e','l','t','a']
def keyFinish : List Char := ['f','i','n','i','s','h','_','r','e','a','s','o','n']
def keyChoices : List Char := ['c','h','o','i','c','e','s']

def decodeDelta : Json → Option ChatChunkDelta
  | Json.obj fs =>
    match findField keyContent fs with
    | none => some ⟨none⟩
    | some Json.null => some ⟨none⟩
    | some (Json.str s) => some ⟨some s⟩
    | some _ => none
  | _ => none

def decodeFinish : Json → Option (Option FinishReason)
  | Json.null => some none
  | Json.str s =>
    if s = ['s','t','o','p'] then some (some FinishReason.stop)
    else if s = ['l','e','n','g','t','h'] then some (some FinishReason.length)
    else if s = ['t','o','o','l','_','c','a','l','l','s'] then
      some (some FinishReason.tool_calls)
    else if s = ['c','o','n','t','e','n','t','_','f','i','l','t','e','r'] then
      some (some FinishReason.content_filter)
    else none
  | _ => none

def decodeChoice : Json → Option ChatChunkChoice
  | Json.obj fs =>
    let dRes : Option (Option ChatChunkDelta) :=
      match findField keyDelta fs with
      | none => some none
      | some j => (decodeDelta j).map some
    let fRes : Option (Option FinishReason) :=
      match findField keyFinish fs with
      | none => some none
      | some j => decodeFinish j
    match dRes, fRes with
    | some d, some f => some ⟨d, f⟩
    | _, _ => none
  | _ => none

def decodeChoiceList : List Json → Option (List ChatChunkChoice)
  | [] => some []
  | j :: rest =>
    match decodeChoice j, decodeChoiceList rest with
    | some c, some cs => some (c :: cs)
    | _, _ => none

def decodeChunk : Json → Option ChatChunkResponse
  | Json.obj fs =>
    match findField keyChoices fs with
    | some (Json.arr js) => (decodeChoiceList js).map ChatChunkResponse.mk
    | _ => none
  | _ => none

/-- `serde_json::from_str::<ChatChunkResponse>` on `msg`. -/
def parseChunkText (s : List Char) : Option ChatChunkResponse :=
  (parseJsonText s).bind decodeChunk

/-! ## `read_chunk` (api.rs 400-422) -/

/-- Modelled from the spec: `APIError` of `v1/error.rs` (file not under the
provided sources); an error value carrying a message string. -/
structure APIError where
  message : String
  deriving DecidableEq

instance {e a : Type} [DecidableEq e] [DecidableEq a] : DecidableEq (Except e a)
  | Except.ok x, Except.ok y =>
    if h : x = y then isTrue (by rw [h]) else isFalse (by simp [h])
  | Except.ok _, Except.error _ => isFalse (by simp)
  | Except.error _, Except.ok _ => isFalse (by simp)
  | Except.error x, Except.error y =>
    if h : x = y then isTrue (by rw [h]) else isFalse (by simp [h])

/-- Message text of the source's hand-made errors (api.rs 414, 419). -/
def invalidMsg : String := "invalid string, ignoring it"

/-- Stand-in for the `serde_json` error rendering `e.to_string()` (api.rs 408);
the exact text is irrelevant to every claim (these errors are swallowed). -/
def jsonErrMsg : String := "json parse error"

/-- The literal SSE framing token `data:`. -/
def dataTok : List Char := ['d','a','t','a',':']

/-- Suffix after the first occurrence of `data:`, if any. -/
def afterFirstData : List Char → Option (List Char)
  | [] => none
  | c :: t =>
    if dataTok.isPrefixOf (c :: t) then some ((c :: t).drop dataTok.length)
    else afterFirstData t

/-- `ser_data.splitn(2, "data:").last()` (api.rs 403): the final piece of an
at-most-two-way split, i.e. everything after the first `data:` when one
occurs, the whole string otherwise.  Rust's `splitn` iterator is never empty,
so `last()` is always `Some` and the `None` arm of api.rs 413 is dead code. -/
def splitnDataLast (s : List Char) : List Char :=
  (afterFirstData s).getD s

/-- `read_chunk` (api.rs 400-422): trim the line; if it is empty or starts
with `data:`, strip through the first `data:` and parse the remainder as a
chunk; otherwise reject. -/
def read_chunk (line : List Char) : Except APIError ChatChunkResponse :=
  let ser := trim line
  if ser.isEmpty || dataTok.isPrefixOf ser then
    match parseChunkText (splitnDataLast ser) with
    | some chunk => Except.ok chunk
    | none => Except.error ⟨jsonErrMsg⟩
  else Except.error ⟨invalidMsg⟩

/-! ## The decode loop of `chat_completion_stream` (api.rs 441-474) -/

/-- One poll of the underlying `bytes_stream()`: a data chunk, or an I/O
error.  (An empty data chunk is skipped by `StreamReader`, matching its
`has_chunk` test.) -/
inductive NetEvent where
  | chunk (data : List Char) : NetEvent
  | fail : NetEvent
  deriving DecidableEq

/-- First line of `s` up to and including `\n`, with the rest, when `s`
contains a `\n`. -/
def takeLine : List Char → Option (List Char × List Char)
  | [] => none
  | c :: t =>
    if c = '\n' then some ([c], t)
    else
      match takeLine t with
      | some (l, r) => some (c :: l, r)
      | none => none

/-- `reader.read_line` (api.rs 446) over a `StreamReader`: `buf` is the
reader's buffered leftover chunk, `evs` the not-yet-polled stream.  Returns
the bytes read (a `\n`-terminated line, or at end of stream whatever is left,
possibly nothing), the new leftover, and the remaining stream; an I/O error
from the stream is surfaced as `Except.error`. -/
def pullLine (buf : List Char) :
    List NetEvent → Except Unit (List Char × List Char × List NetEvent)
  | [] =>
    match takeLine buf with
    | some (l, r) => Except.ok (l, r, [])
    | none => Except.ok (buf, [], [])
  | NetEvent.fail :: rest =>
    match takeLine buf with
    | some (l, r) => Except.ok (l, r, NetEvent.fail :: rest)
    | none => Except.error ()
  | NetEvent.chunk c :: rest =>
    match takeLine buf with
    | some (l, r) => Except.ok (l, r, NetEvent.chunk c :: rest)
    | none => pullLine (buf ++ c) rest

/-- The `stream::unfold` loop body (api.rs 441-474), fuel-indexed so that it
is structural and kernel-computable.  A read error or a zero-byte read ends
the stream; a line that `read_chunk` accepts is emitted **and the reader is
rebuilt with `StreamReader::new(reader.into_inner())` (api.rs 465), which
discards the buffered leftover `buf'`**; a rejected line is skipped with the
reader (and its leftover) kept. -/
def decodeLoopF : Nat → List Char → List NetEvent → List ChatChunkResponse
  | 0, _, _ => []
  | fuel + 1, buf, evs =>
    match pullLine buf evs with
    | Except.error _ => []
    | Except.ok (line, buf', evs') =>
      if line.isEmpty then []
      else
        match read_chunk line with
        | Except.ok c => c :: decodeLoopF fuel [] evs'
        | Except.error _ => decodeLoopF fuel buf' evs'

/-- Total byte count of the pending events. -/
def totalBytes : List NetEvent → Nat
  | [] => 0
  | NetEvent.chunk c :: rest => c.length + totalBytes rest
  | NetEvent.fail :: rest => totalBytes rest

/-- Fuel that provably suffices for `decodeLoopF` (each iteration that
continues consumes at least one byte). -/
def streamFuel (evs : List NetEvent) : Nat :=
  totalBytes evs + evs.length + 1

/-- The chunk sequence produced by `chat_completion_stream` from a given
response-body event stream. -/
def decodeStream (evs : List NetEvent) : List ChatChunkResponse :=
  decodeLoopF (streamFuel evs) [] evs

/-- The lines of a byte stream as `read_line` would deliver them on a clean
run: `\n`-terminated spans, plus a final unterminated remainder if any. -/
def linesOfF : Nat → List Char → List (List Char)
  | 0, _ => []
  | _ + 1, [] => []
  | fuel + 1, s =>
    match takeLine s with
    | some (l, r) => l :: linesOfF fuel r
    | none => [s]

def linesOf (s : List Char) : List (List Char) :=
  linesOfF (s.length + 1) s

/-! ## Transport wrapper (api.rs 147-168, 424-435) -/

/-- The reqwest response as far as the decoder cares: HTTP status, the text
used for the error message of api.rs 433, and the body byte stream. -/
structure HttpResponse where
  status : Nat
  text : String
  body : List NetEvent

/-- `reqwest::StatusCode::is_success`: 2xx. -/
def statusIsSuccess (s : Nat) : Bool := decide (200 ≤ s ∧ s < 300)

/-- `reqwest::Response::error_for_status` (api.rs 161): client or server
error statuses (4xx/5xx) become an error. -/
def error_for_status (r : HttpResponse) : Except APIError HttpResponse :=
  if 400 ≤ r.status ∧ r.status < 600 then
    Except.error ⟨"status error " ++ toString r.status⟩
  else Except.ok r

/-- `post_stream` (api.rs 147-168): the transport send result (modelled as an
input, since the network is external) followed by `error_for_status`. -/
def post_stream (transport : Except APIError HttpResponse) : Except APIError HttpResponse :=
  match transport with
  | Except.error e => Except.error e
  | Except.ok r => error_for_status r

/-- `chat_completion_stream` (api.rs 424-476): `post_stream`, the explicit
non-success status check of api.rs 431-435, then the decode loop over the
response body. -/
def chat_completion_stream (transport : Except APIError HttpResponse) :
    Except APIError (List ChatChunkResponse) :=
  match post_stream transport with
  | Except.error e => Except.error e
  | Except.ok res =>
    if !statusIsSuccess res.status then Except.error ⟨res.text⟩
    else Except.ok (decodeStream res.body)

/-! ## Concrete wire data used by the scenario theorems -/

def lineEmptyChoices : List Char := "data: \x7b\x22choices\x22:[]\x7d\n".data

def lineStop : List Char :=
  "data: \x7b\x22choices\x22:[\x7b\x22finish_reason\x22:\x22stop\x22\x7d]\x7d\n".data

def lineHi : List Char :=
  "data: \x7b\x22choices\x22:[\x7b\x22delta\x22:\x7b\x22content\x22:\x22Hi\x22\x7d\x7d]\x7d\n".data

def lineDeltaStop : List Char :=
  "data: \x7b\x22choices\x22:[\x7b\x22delta\x22:\x7b\x7d,\x22finish_reason\x22:\x22stop\x22\x7d]\x7d\n".data

def chunkEmpty : ChatChunkResponse := ⟨[]⟩

def chunkStop : ChatChunkResponse := ⟨[⟨none, some FinishReason.stop⟩]⟩

def chunkHi : ChatChunkResponse := ⟨[⟨some ⟨some ['H','i']⟩, none⟩]⟩

def chunkDeltaStop : ChatChunkResponse := ⟨[⟨some ⟨none⟩, some FinishReason.stop⟩]⟩

/-- A valid chunk payload whose own text contains the substring `data:`. -/
def payloadDataHi : List Char :=
  "\x7b\x22choices\x22:[\x7b\x22delta\x22:\x7b\x22content\x22:\x22data: hi\x22\x7d\x7d]\x7d".data

def chunkDataHi : ChatChunkResponse := ⟨[⟨some ⟨some "data: hi".data⟩, none⟩]⟩

/-! ## Scenario theorems: the reader-reconstruction data loss -/

/-- C1: refuted on the code.  The input byte stream consists of two valid
`data:`-prefixed JSON chunk lines separated by line terminators (every line of
it is accepted by `read_chunk`), yet when the two lines arrive in a single
network read the lazy sequence yields only one chunk, not two: after the first
emitted chunk the loop rebuilds the reader with
`StreamReader::new(reader.into_inner())`, which discards the buffered second
line. -/
theorem decodeStream_loses_buffered_second_line :
    (linesOf (lineEmptyChoices ++ lineStop)).length = 2 ∧
    (linesOf (lineEmptyChoices ++ lineStop)).all (fun l => (read_chunk l).isOk) = true ∧
    decodeStream [NetEvent.chunk (lineEmptyChoices ++ lineStop)] = [chunkEmpty] := by
  decide

/-- C2: refuted on the code.  The same concatenated bytes delivered as one
network read versus as two line-aligned reads produce different chunk
sequences, so the decoded sequence does depend on how the bytes are
partitioned into reads.  (A single line split across two reads, the spec's
example, is nevertheless assembled correctly — second conjunct.) -/
theorem decodeStream_depends_on_read_boundaries :
    decodeStream [NetEvent.chunk (lineEmptyChoices ++ lineStop)] ≠
      decodeStream [NetEvent.chunk lineEmptyChoices, NetEvent.chunk lineStop] ∧
    decodeStream [NetEvent.chunk "data: \x7b\x22choi".data,
      NetEvent.chunk "ces\x22:[]\x7d\n".data] = [chunkEmpty] := by
  decide

/-- C3: refuted on the code.  After an emitted chunk the buffered rest of the
current read is dropped, so decoding resumes mid-line at the next read
boundary; the decoder then yields a chunk (here `chunkStop`) for a span that
is not the parse of the prefix-stripped payload of any line of the input
stream (the second input line starts with `X` and is rejected by
`read_chunk`). -/
theorem decodeStream_emits_chunk_from_no_input_line :
    decodeStream [NetEvent.chunk (lineEmptyChoices ++ ['X']),
      NetEvent.chunk lineStop] = [chunkEmpty, chunkStop] ∧
    (decodeStream [NetEvent.chunk (lineEmptyChoices ++ ['X']),
        NetEvent.chunk lineStop]).any
      (fun c => (linesOf (lineEmptyChoices ++ 'X' :: lineStop)).all
        (fun l => (read_chunk l).toOption != some c)) = true := by
  decide

/-- C4: refuted on the code.  In the stream `valid line, blank line, valid
line` delivered in one network read, the blank line indeed produces no chunk,
but the subsequent valid line does not decode either (it is discarded with the
reader's buffer after the first emitted chunk), although line-by-line decoding
of the same input accepts both valid lines in order. -/
theorem decodeStream_blank_then_valid_lost :
    decodeStream [NetEvent.chunk (lineEmptyChoices ++ '\n' :: lineStop)] =
      [chunkEmpty] ∧
    (linesOf (lineEmptyChoices ++ '\n' :: lineStop)).filterMap
      (fun l => (read_chunk l).toOption) = [chunkEmpty, chunkStop] := by
  decide

/-- C7: refuted on the code as an input-stream property.  For the spec's
two-line scenario the decoder yields the two stated chunks only when each line
arrives in its own network read; delivered as a single read it yields just the
first chunk, the second line being discarded with the reader's buffer. -/
theorem decodeStream_hi_stop_depends_on_delivery :
    decodeStream [NetEvent.chunk (lineHi ++ lineDeltaStop)] = [chunkHi] ∧
    decodeStream [NetEvent.chunk lineHi, NetEvent.chunk lineDeltaStop] =
      [chunkHi, chunkDeltaStop] := by
  decide

/-- C6: transport failures are surfaced as an explicit `APIError` before any
chunk sequence exists, and a chunk sequence is returned exactly when the HTTP
status is a success (2xx): a request error passes through unchanged, and for a
delivered response the result is `ok` iff `is_success` holds. -/
theorem chatCompletionStream_transport_errors :
    (∀ e, chat_completion_stream (Except.error e) = Except.error e) ∧
    (∀ r, (chat_completion_stream (Except.ok r)).isOk = statusIsSuccess r.status) := by
  refine ⟨fun e => rfl, fun r => ?_⟩
  unfold chat_completion_stream post_stream error_for_status
  by_cases h4 : 400 ≤ r.status ∧ r.status < 600
  · have hs : statusIsSuccess r.status = false := by
      unfold statusIsSuccess
      simp only [decide_eq_false_iff_not]
      omega
    simp [h4, hs, Except.isOk, Except.toBool]
  · cases hs : statusIsSuccess r.status <;> simp [h4, hs, Except.isOk, Except.toBool]

/-! ## Structural lemmas about line pulling and the decode loop -/

theorem takeLine_spec :
    ∀ {s l r : List Char}, takeLine s = some (l, r) → s = l ++ r ∧ l ≠ [] := by
  intro s
  induction s with
  | nil => intro l r h; simp [takeLine] at h
  | cons c t ih =>
    intro l r h
    unfold takeLine at h
    by_cases hc : c = '\n'
    · rw [if_pos hc] at h
      simp only [Option.some.injEq, Prod.mk.injEq] at h
      obtain ⟨h1, h2⟩ := h
      subst h1; subst h2
      exact ⟨rfl, by simp⟩
    · rw [if_neg hc] at h
      cases ht : takeLine t with
      | none => rw [ht] at h; exact absurd h (by simp)
      | some p =>
        obtain ⟨l', r'⟩ := p
        rw [ht] at h
        obtain ⟨hs, hn⟩ := ih ht
        simp only [Option.some.injEq, Prod.mk.injEq] at h
        obtain ⟨h1, h2⟩ := h
        subst h1; subst h2
        exact ⟨by rw [hs]; rfl, by simp⟩

theorem pullLine_of_takeLine {buf l r : List Char} (evs : List NetEvent)
    (h : takeLine buf = some (l, r)) : pullLine buf evs = Except.ok (l, r, evs) := by
  cases evs with
  | nil => simp only [pullLine, h]
  | cons ev rest => cases ev <;> simp only [pullLine, h]

theorem pullLine_nil {buf : List Char} (h : takeLine buf = none) :
    pullLine buf [] = Except.ok (buf, [], []) := by
  simp only [pullLine, h]

theorem pullLine_fail {buf : List Char} {rest : List NetEvent}
    (h : takeLine buf = none) : pullLine buf (NetEvent.fail :: rest) = Except.error () := by
  simp only [pullLine, h]

theorem pullLine_chunk {buf c : List Char} {rest : List NetEvent}
    (h : takeLine buf = none) :
    pullLine buf (NetEvent.chunk c :: rest) = pullLine (buf ++ c) rest := by
  simp only [pullLine, h]

theorem pullLine_size :
    ∀ (evs : List NetEvent) (buf l b : List Char) (e : List NetEvent),
    pullLine buf evs = Except.ok (l, b, e) →
    l.length + b.length + totalBytes e + e.length ≤
      buf.length + totalBytes evs + evs.length := by
  intro evs
  induction evs with
  | nil =>
    intro buf l b e h
    cases ht : takeLine buf with
    | some p =>
      obtain ⟨tl, tr⟩ := p
      rw [pullLine_of_takeLine [] ht] at h
      obtain ⟨hs, -⟩ := takeLine_spec ht
      injection h with h'
      obtain ⟨h1, h2, h3⟩ : tl = l ∧ tr = b ∧ ([] : List NetEvent) = e := by
        refine ⟨?_, ?_, ?_⟩ <;> simp_all
      subst h1; subst h2; subst h3
      simp [totalBytes, hs]
    | none =>
      rw [pullLine_nil ht] at h
      injection h with h'
      obtain ⟨h1, h2, h3⟩ : buf = l ∧ ([] : List Char) = b ∧ ([] : List NetEvent) = e := by
        refine ⟨?_, ?_, ?_⟩ <;> simp_all
      subst h1; subst h2; subst h3
      simp [totalBytes]
  | cons ev rest ih =>
    intro buf l b e h
    cases ht : takeLine buf with
    | some p =>
      obtain ⟨tl, tr⟩ := p
      rw [pullLine_of_takeLine (ev :: rest) ht] at h
      obtain ⟨hs, -⟩ := takeLine_spec ht
      injection h with h'
      obtain ⟨h1, h2, h3⟩ : tl = l ∧ tr = b ∧ ev :: rest = e := by
        refine ⟨?_, ?_, ?_⟩ <;> simp_all
      subst h1; subst h2; subst h3
      simp [hs]
    | none =>
      cases ev with
      | fail => rw [pullLine_fail ht] at h; exact absurd h (by simp)
      | chunk c =>
        rw [pullLine_chunk ht] at h
        have := ih (buf ++ c) l b e h
        simp [totalBytes] at this ⊢
        omega

theorem decodeLoopF_stable :
    ∀ (f g : Nat) (buf : List Char) (evs : List NetEvent),
    buf.length + totalBytes evs + evs.length < f →
    buf.length + totalBytes evs + evs.length < g →
    decodeLoopF f buf evs = decodeLoopF g buf evs := by
  intro f
  induction f with
  | zero => intro g buf evs hf _; exact absurd hf (Nat.not_lt_zero _)
  | succ f ih =>
    intro g buf evs hf hg
    cases g with
    | zero => exact absurd hg (Nat.not_lt_zero _)
    | succ g =>
      unfold decodeLoopF
      cases hp : pullLine buf evs with
      | error => rfl
      | ok t =>
        obtain ⟨line, b', e'⟩ := t
        have hsz := pullLine_size evs buf line b' e' hp
        simp only
        cases hl : line.isEmpty
        · have hline : 1 ≤ line.length := by
            cases line with
            | nil => simp at hl
            | cons => simp
          cases hr : read_chunk line with
          | ok c =>
            have : decodeLoopF f [] e' = decodeLoopF g [] e' := by
              apply ih <;> simp <;> omega
            rw [this]
          | error _ =>
            apply ih <;> omega
        · rfl

theorem pullLine_fail_split :
    ∀ (evs : List NetEvent) (buf : List Char) (post : List NetEvent),
    (pullLine buf (evs ++ NetEvent.fail :: post) = Except.error () ∧
     pullLine buf (evs ++ [NetEvent.fail]) = Except.error ()) ∨
    (∃ l b e₀,
      pullLine buf (evs ++ NetEvent.fail :: post) =
        Except.ok (l, b, e₀ ++ NetEvent.fail :: post) ∧
      pullLine buf (evs ++ [NetEvent.fail]) = Except.ok (l, b, e₀ ++ [NetEvent.fail])) := by
  intro evs
  induction evs with
  | nil =>
    intro buf post
    cases ht : takeLine buf with
    | some p =>
      obtain ⟨l, r⟩ := p
      right
      exact ⟨l, r, [], by rw [List.nil_append, pullLine_of_takeLine _ ht],
        by rw [List.nil_append, pullLine_of_takeLine _ ht]⟩
    | none =>
      left
      exact ⟨by rw [List.nil_append, pullLine_fail ht],
        by rw [List.nil_append, pullLine_fail ht]⟩
  | cons ev rest ih =>
    intro buf post
    cases ht : takeLine buf with
    | some p =>
      obtain ⟨l, r⟩ := p
      right
      exact ⟨l, r, ev :: rest, by rw [List.cons_append, pullLine_of_takeLine _ ht],
        by rw [List.cons_append, pullLine_of_takeLine _ ht]⟩
    | none =>
      cases ev with
      | fail =>
        left
        exact ⟨by rw [List.cons_append, pullLine_fail ht],
          by rw [List.cons_append, pullLine_fail ht]⟩
      | chunk c =>
        have h1 : pullLine buf ((NetEvent.chunk c :: rest) ++ NetEvent.fail :: post) =
            pullLine (buf ++ c) (rest ++ NetEvent.fail :: post) := by
          rw [List.cons_append, pullLine_chunk ht]
        have h2 : pullLine buf ((NetEvent.chunk c :: rest) ++ [NetEvent.fail]) =
            pullLine (buf ++ c) (rest ++ [NetEvent.fail]) := by
          rw [List.cons_append, pullLine_chunk ht]
        rw [h1, h2]
        exact ih (buf ++ c) post

theorem decodeLoopF_fail_tail :
    ∀ (f : Nat) (buf : List Char) (evs post : List NetEvent),
    decodeLoopF f buf (evs ++ NetEvent.fail :: post) =
      decodeLoopF f buf (evs ++ [NetEvent.fail]) := by
  intro f
  induction f with
  | zero => intros; rfl
  | succ f ih =>
    intro buf evs post
    rcases pullLine_fail_split evs buf post with ⟨h1, h2⟩ | ⟨l, b, e₀, h1, h2⟩
    · unfold decodeLoopF
      rw [h1, h2]
    · unfold decodeLoopF
      rw [h1, h2]
      simp only
      cases hl : l.isEmpty
      · cases hr : read_chunk l with
        | ok c => rw [ih [] e₀ post]
        | error _ => rw [ih b e₀ post]
      · rfl

theorem totalBytes_append (a b : List NetEvent) :
    totalBytes (a ++ b) = totalBytes a + totalBytes b := by
  induction a with
  | nil => simp [totalBytes]
  | cons ev rest ih =>
    cases ev with
    | chunk c =>
      simp [totalBytes, ih]
      omega
    | fail => simp [totalBytes, ih]

/-- C5: for every input stream, a read error terminates the sequence exactly
as an end of stream does: everything behind the first failing read is
unobservable (the decoded output with any continuation `post` equals the
output with the stream simply ending at the error), and a stream that fails
or ends immediately yields the empty sequence.  No error value can cross the
sequence interface: the item type of the decoded sequence is
`ChatChunkResponse` alone. -/
theorem decodeStream_error_is_silent_end :
    (∀ evs post, decodeStream (evs ++ NetEvent.fail :: post) =
      decodeStream (evs ++ [NetEvent.fail])) ∧
    decodeStream [NetEvent.fail] = [] ∧ decodeStream [] = [] := by
  refine ⟨?_, by decide, by decide⟩
  intro evs post
  unfold decodeStream
  rw [decodeLoopF_fail_tail _ [] evs post]
  apply decodeLoopF_stable <;> · simp [streamFuel, totalBytes_append, totalBytes]
                                 try omega

/-! ## Lemmas about `trim` and `read_chunk` -/

theorem trim_eq_rdropWhile (s : List Char) :
    trim s = List.rdropWhile isRustWs (trimL s) := rfl

theorem dropWhile_cons_head {p : Char → Bool} :
    ∀ {l : List Char} {a : Char} {t : List Char},
    List.dropWhile p l = a :: t → p a = false := by
  intro l
  induction l with
  | nil => intro a t h; simp [List.dropWhile] at h
  | cons c cs ih =>
    intro a t h
    by_cases hc : p c = true
    · rw [List.dropWhile_cons_of_pos hc] at h
      exact ih h
    · rw [List.dropWhile_cons_of_neg hc] at h
      injection h with h1 _
      subst h1
      simpa using hc

theorem trimL_trim (s : List Char) : trimL (trim s) = trim s := by
  rw [trim_eq_rdropWhile]
  cases h : List.rdropWhile isRustWs (trimL s) with
  | nil => rfl
  | cons a t =>
    have hpre : List.rdropWhile isRustWs (trimL s) <+: trimL s :=
      List.rdropWhile_prefix _ _
    rw [h] at hpre
    obtain ⟨u, hu⟩ := hpre
    have ha : isRustWs a = false := by
      apply dropWhile_cons_head (l := s)
      rw [trimL] at hu
      rw [← hu]
      rfl
    rw [trimL, List.dropWhile_cons_of_neg (by simp [ha])]

theorem trim_idem (s : List Char) : trim (trim s) = trim s := by
  conv_lhs => rw [trim_eq_rdropWhile (trim s), trimL_trim]
  rw [trim_eq_rdropWhile s]
  exact List.rdropWhile_idempotent _ _

theorem readChunk_depends_on_trim {a b : List Char} (h : trim a = trim b) :
    read_chunk a = read_chunk b := by
  unfold read_chunk
  rw [h]

theorem trimL_ws_lead :
    ∀ {w : List Char}, (∀ c ∈ w, isRustWs c = true) →
    ∀ l, trimL (w ++ l) = trimL l := by
  intro w
  induction w with
  | nil => intro _ l; rfl
  | cons c t ih =>
    intro hw l
    rw [List.cons_append, trimL, List.dropWhile_cons_of_pos (hw c (by simp))]
    exact ih (fun x hx => hw x (by simp [hx])) l

theorem dropWhile_append_nil {p : Char → Bool} :
    ∀ {l : List Char}, List.dropWhile p l = [] →
    ∀ w, List.dropWhile p (l ++ w) = List.dropWhile p w := by
  intro l
  induction l with
  | nil => intro _ w; rfl
  | cons c t ih =>
    intro h w
    by_cases hc : p c = true
    · rw [List.dropWhile_cons_of_pos hc] at h
      rw [List.cons_append, List.dropWhile_cons_of_pos hc]
      exact ih h w
    · rw [List.dropWhile_cons_of_neg hc] at h
      exact absurd h (by simp)

theorem dropWhile_append_cons {p : Char → Bool} :
    ∀ {l : List Char} {a : Char} {t : List Char},
    List.dropWhile p l = a :: t →
    ∀ w, List.dropWhile p (l ++ w) = a :: t ++ w := by
  intro l
  induction l with
  | nil => intro a t h; simp [List.dropWhile] at h
  | cons c cs ih =>
    intro a t h w
    by_cases hc : p c = true
    · rw [List.dropWhile_cons_of_pos hc] at h
      rw [List.cons_append, List.dropWhile_cons_of_pos hc]
      exact ih h w
    · rw [List.dropWhile_cons_of_neg hc] at h
      injection h with h1 h2
      subst h1; subst h2
      rw [List.cons_append, List.dropWhile_cons_of_neg hc]

theorem rdropWhile_append_ws (m : List Char) :
    ∀ w, (∀ c ∈ w, isRustWs c = true) →
    List.rdropWhile isRustWs (m ++ w) = List.rdropWhile isRustWs m := by
  intro w
  induction w using List.reverseRecOn with
  | nil => intro _; simp
  | append_singleton ws x ih =>
    intro hw
    rw [← List.append_assoc,
      List.rdropWhile_concat_pos isRustWs (m ++ ws) x (hw x (by simp))]
    exact ih (fun c hc => hw c (by simp [hc]))

theorem trim_append_ws (l : List Char) :
    ∀ w, (∀ c ∈ w, isRustWs c = true) → trim (l ++ w) = trim l := by
  intro w hw
  rw [trim_eq_rdropWhile, trim_eq_rdropWhile]
  cases h : trimL l with
  | nil =>
    have h2 : trimL (l ++ w) = trimL w := dropWhile_append_nil h w
    have h3 : trimL w = [] := by
      rw [trimL]
      exact List.dropWhile_eq_nil_iff.mpr (by simpa using hw)
    rw [h2, h3]
  | cons a t =>
    have h2 : trimL (l ++ w) = a :: t ++ w := dropWhile_append_cons h w
    rw [h2]
    exact rdropWhile_append_ws (a :: t) w hw

theorem trim_ws_lead {w : List Char} (hw : ∀ c ∈ w, isRustWs c = true)
    (l : List Char) : trim (w ++ l) = trim l := by
  rw [trim_eq_rdropWhile, trim_eq_rdropWhile, trimL_ws_lead hw]

/-- The acceptance branch of `read_chunk` unfolded: an accepted (empty or
`data:`-prefixed) trimmed line is stripped through the first `data:` and the
remainder is handed to the JSON parse, whose outcome alone decides between
`ok` and `error`. -/
theorem readChunk_accepted (line : List Char)
    (h : ((trim line).isEmpty || dataTok.isPrefixOf (trim line)) = true) :
    read_chunk line =
      (match parseChunkText (splitnDataLast (trim line)) with
       | some c => Except.ok c
       | none => Except.error ⟨jsonErrMsg⟩) := by
  unfold read_chunk
  rw [if_pos h]

/-- C8: `read_chunk` accepts a line iff its trimmed form is empty or starts
with `data:`; in both branches it strips through the first `data:` and feeds
the remainder to the JSON parser.  For a blank line the remainder handed to
the parser is the empty string, the parse fails, and `read_chunk` returns an
error — never a chunk. -/
theorem readChunk_classifies_empty_or_data :
    (∀ line, ((trim line).isEmpty || dataTok.isPrefixOf (trim line)) = true →
      read_chunk line =
        (match parseChunkText (splitnDataLast (trim line)) with
         | some c => Except.ok c
         | none => Except.error ⟨jsonErrMsg⟩)) ∧
    splitnDataLast [] = [] ∧
    parseChunkText [] = none ∧
    (∀ line, trim line = [] →
      read_chunk line = Except.error ⟨jsonErrMsg⟩) := by
  refine ⟨readChunk_accepted, rfl, rfl, fun line h => ?_⟩
  rw [readChunk_accepted line (by rw [h]; rfl), h]
  decide

theorem readChunk_classifies_empty_or_data_witness :
    read_chunk [' '] = Except.error ⟨jsonErrMsg⟩ ∧
    read_chunk dataTok =
      (match parseChunkText (splitnDataLast (trim dataTok)) with
       | some c => Except.ok c
       | none => Except.error ⟨jsonErrMsg⟩) :=
  ⟨readChunk_classifies_empty_or_data.2.2.2 [' '] (by decide),
   readChunk_classifies_empty_or_data.1 dataTok (by decide)⟩

/-- C9: `read_chunk` is invariant under trimming — its result depends only on
the trimmed line.  In particular a CRLF-terminated line decodes exactly like
the LF-terminated one, and whitespace in front of the `data:` framing prefix
is tolerated. -/
theorem readChunk_trim_invariant :
    (∀ l, read_chunk (trim l) = read_chunk l) ∧
    (∀ l, read_chunk (l ++ ['\r', '\n']) = read_chunk (l ++ ['\n'])) ∧
    (∀ w l, (∀ c ∈ w, isRustWs c = true) → read_chunk (w ++ l) = read_chunk l) := by
  refine ⟨fun l => readChunk_depends_on_trim (trim_idem l), fun l => ?_,
    fun w l hw => readChunk_depends_on_trim (trim_ws_lead hw l)⟩
  apply readChunk_depends_on_trim
  rw [trim_append_ws l ['\r', '\n'] (by decide), trim_append_ws l ['\n'] (by decide)]

theorem readChunk_trim_invariant_witness :
    read_chunk ([' '] ++ lineEmptyChoices) = read_chunk lineEmptyChoices :=
  readChunk_trim_invariant.2.2 [' '] lineEmptyChoices (by decide)

/-! ## Lemmas for the single-strip property of `splitn(2, "data:")` -/

theorem trim_eq_self_parts {p : List Char} (ht : trim p = p) :
    trimL p = p ∧ List.rdropWhile isRustWs p = p := by
  have ht' : List.rdropWhile isRustWs (trimL p) = p := by
    rw [← trim_eq_rdropWhile]; exact ht
  have h1 : List.Sublist (trimL p) p := (List.dropWhile_suffix isRustWs).sublist
  have h2 : List.Sublist (List.rdropWhile isRustWs (trimL p)) (trimL p) :=
    (List.rdropWhile_prefix isRustWs (trimL p)).sublist
  have hlen : p.length ≤ (trimL p).length := by
    have h3 := h2.length_le
    rw [ht'] at h3
    exact h3
  have e1 : trimL p = p := h1.eq_of_length (Nat.le_antisymm h1.length_le hlen)
  exact ⟨e1, by rw [e1] at ht'; exact ht'⟩

theorem trim_data_line {p : List Char} (hp : p ≠ []) (ht : trim p = p) :
    trim (dataTok ++ ' ' :: p) = dataTok ++ ' ' :: p := by
  obtain ⟨e1, e2⟩ := trim_eq_self_parts ht
  have hL : trimL (dataTok ++ ' ' :: p) = 'd' :: ['a','t','a',':'] ++ ' ' :: p :=
    dropWhile_append_cons (by decide) (' ' :: p)
  have hR : List.rdropWhile isRustWs (dataTok ++ ' ' :: p) = dataTok ++ ' ' :: p := by
    apply List.rdropWhile_eq_self_iff.mpr
    intro hl
    have hgl : (dataTok ++ ' ' :: p).getLast hl = p.getLast hp :=
      calc (dataTok ++ ' ' :: p).getLast hl
          = (' ' :: p).getLast (by simp) := List.getLast_append' dataTok (' ' :: p) (by simp)
        _ = p.getLast hp := List.getLast_cons hp
    rw [hgl]
    simpa using List.rdropWhile_eq_self_iff.mp e2 hp
  rw [trim_eq_rdropWhile, hL]
  exact hR

theorem afterFirstData_of_prefixOf :
    ∀ {s : List Char}, s ≠ [] → dataTok.isPrefixOf s = true →
    afterFirstData s = some (s.drop dataTok.length) := by
  intro s hne h
  cases s with
  | nil => exact absurd rfl hne
  | cons c t => simp [afterFirstData, h]

theorem parseChunkText_cons_space (s : List Char) :
    parseChunkText (' ' :: s) = parseChunkText s := by
  have h : skipJsonWs (' ' :: s) = skipJsonWs s := List.dropWhile_cons_of_pos (by rfl)
  unfold parseChunkText parseJsonText
  rw [h]

/-- C10: only the first occurrence of the `data:` token is stripped
(`splitn` with limit 2): for every valid chunk payload `p` whose own text
contains `data:` and which carries no surrounding whitespace, the line
`data: <p>` still parses into exactly the chunk `p` denotes, payload intact. -/
theorem readChunk_strips_first_data_only (p : List Char) (c : ChatChunkResponse)
    (hTrim : trim p = p) (hParse : parseChunkText p = some c)
    (hHas : dataTok <:+: p) :
    read_chunk (dataTok ++ ' ' :: p) = Except.ok c := by
  have hp : p ≠ [] := by
    intro h
    rw [h] at hParse
    have hnone : parseChunkText [] = none := by decide
    rw [hnone] at hParse
    exact Option.noConfusion hParse
  have hline : trim (dataTok ++ ' ' :: p) = dataTok ++ ' ' :: p := trim_data_line hp hTrim
  have hpref : dataTok.isPrefixOf (dataTok ++ ' ' :: p) = true :=
    List.isPrefixOf_iff_prefix.mpr (List.prefix_append _ _)
  have hcond : ((trim (dataTok ++ ' ' :: p)).isEmpty ||
      dataTok.isPrefixOf (trim (dataTok ++ ' ' :: p))) = true := by
    rw [hline]
    simp [hpref]
  rw [readChunk_accepted _ hcond, hline]
  have hsplit : splitnDataLast (dataTok ++ ' ' :: p) = ' ' :: p := by
    unfold splitnDataLast
    rw [afterFirstData_of_prefixOf (by simp) hpref]
    simp [List.drop_left]
  rw [hsplit, parseChunkText_cons_space, hParse]

theorem readChunk_strips_first_data_only_witness :
    read_chunk (dataTok ++ ' ' :: payloadDataHi) = Except.ok chunkDataHi :=
  readChunk_strips_first_data_only payloadDataHi chunkDataHi
    (by decide) (by decide) (by decide)

end LeapConnect
